import Mathlib

/-!
Verification of the Quality Scoring + Perceptual Deduplication core of the
Travel-website photo pipeline.

The development is a shallow embedding of the two source modules
`agents/duplicate_detection.py` and `agents/quality_assessment.py`:

* Python strings become `List Char`; `int(c, 16)` becomes `hexVal`, which is
  `none` exactly when the Python call raises `ValueError`.
* Fallible code is embedded with `Option`: `hamming_distance` returns `none`
  when the Python method would raise.
* Python float arithmetic is embedded exactly: binary64 doubles are dyadic
  rationals, the weight literals `0.35, 0.30, 0.20, 0.15, 0.4, 0.6` are the
  exact doubles they parse to, and each arithmetic operation rounds its
  exact result to 53 significant bits, round to nearest, ties to even
  (`roundDouble`, stated per binade on the domain `[1/8, 8)`, which contains
  every intermediate value of the two weighted-sum computations for scores
  in 1..5). Python's `round` (round-half-to-even on the exact value of its
  double argument) becomes `pyRound`.
* The external image libraries (PIL, cv2, numpy, imagehash) are collaborators
  outside the core: their measured outputs (Laplacian variance, clipping
  percentages, noise standard deviation, the three hash strings) enter the
  embedding as inputs, with `none` marking a raised exception, exactly at the
  boundary where the source wraps those calls in `try/except`.
* `list.sort(key=..., reverse=True)` (a stable sort) is embedded with a
  stable insertion sort under the reversed comparison: a stable sort's
  output is unique, so any stable sorting algorithm embeds Python's.
-/

/-- Value of `int(c, 16)` for a single ASCII character: `some` of the digit
value on a hexadecimal digit, `none` where the Python call raises
`ValueError`. Beyond ASCII, CPython additionally accepts every Unicode
decimal digit (for example the Arabic-Indic five evaluates to 5), which this
model does not reproduce; the pipeline's hash strings - `str(imagehash...)`
output or the empty sentinel - are ASCII, on which the model is exact, and
the theorems below use the raising behaviour only on the ASCII range. -/
def hexVal (c : Char) : Option Nat :=
  if '0' ≤ c ∧ c ≤ '9' then some (c.toNat - '0'.toNat)
  else if 'a' ≤ c ∧ c ≤ 'f' then some (c.toNat - 'a'.toNat + 10)
  else if 'A' ≤ c ∧ c ≤ 'F' then some (c.toNat - 'A'.toNat + 10)
  else none

/-- Structural helper for `popcount`: the fuel bounds the number of halving
steps, and `n` halvings always exhaust `n`. -/
def popcountAux : Nat → Nat → Nat
  | 0, _ => 0
  | fuel + 1, n => if n = 0 then 0 else n % 2 + popcountAux fuel (n / 2)

/-- Number of set bits, `bin(n).count('1')` in the source. -/
def popcount (n : Nat) : Nat := popcountAux n n

/-- Python's `round` on the exact value of its argument: round half to even
(banker's rounding), the rounding Python's builtin uses. It is also the
integer core of binary64 rounding, whose ties go to the even significand. -/
def pyRound (x : ℚ) : Int :=
  if x - (⌊x⌋ : ℚ) < 1 / 2 then ⌊x⌋
  else if 1 / 2 < x - (⌊x⌋ : ℚ) then ⌊x⌋ + 1
  else if ⌊x⌋ % 2 = 0 then ⌊x⌋ else ⌊x⌋ + 1

/-- Rounding of an exact rational to the nearest IEEE binary64 double
(53 significant bits, round to nearest, ties to even), written per binade:
a value in `[2^e, 2^(e+1))` is rounded on the grid of multiples of
`2^(e-52)`. The case split covers `[1/8, 8)`, which contains every
intermediate value of the two weighted-sum computations for scores in 1..5;
a value rounding up to the next binade is still exact on its grid. -/
def roundDouble (q : ℚ) : ℚ :=
  if q < 1 / 4 then (pyRound (q * 2 ^ 55) : ℚ) / 2 ^ 55
  else if q < 1 / 2 then (pyRound (q * 2 ^ 54) : ℚ) / 2 ^ 54
  else if q < 1 then (pyRound (q * 2 ^ 53) : ℚ) / 2 ^ 53
  else if q < 2 then (pyRound (q * 2 ^ 52) : ℚ) / 2 ^ 52
  else if q < 4 then (pyRound (q * 2 ^ 51) : ℚ) / 2 ^ 51
  else (pyRound (q * 2 ^ 50) : ℚ) / 2 ^ 50

/-- The IEEE binary64 value of the Python literal `0.35`. -/
def c35 : ℚ := 3152519739159347 / 2 ^ 53

/-- The IEEE binary64 value of the Python literal `0.30`. -/
def c30 : ℚ := 5404319552844595 / 2 ^ 54

/-- The IEEE binary64 value of the Python literal `0.20`. -/
def c20 : ℚ := 3602879701896397 / 2 ^ 54

/-- The IEEE binary64 value of the Python literal `0.15`. -/
def c15 : ℚ := 5404319552844595 / 2 ^ 55

/-- The IEEE binary64 value of the Python literal `0.4`. -/
def c04 : ℚ := 3602879701896397 / 2 ^ 53

/-- The IEEE binary64 value of the Python literal `0.6`. -/
def c06 : ℚ := 5404319552844595 / 2 ^ 53

/-- Binary64 multiplication: IEEE basic operations round their exact
result. -/
def floatMul (a b : ℚ) : ℚ := roundDouble (a * b)

/-- Binary64 addition: IEEE basic operations round their exact result. -/
def floatAdd (a b : ℚ) : ℚ := roundDouble (a + b)

/-- The accumulation loop of `DuplicateDetectionAgent.hamming_distance`
(lines 112-116): XOR the hex digits pairwise and add the popcounts.
`none` models the loop raising on a non-hexadecimal character; Python
evaluates `int(c1, 16)` before `int(c2, 16)`, so failure of either side
aborts the whole call. -/
def hammingLoop : List (Char × Char) → Nat → Option Nat
  | [], acc => some acc
  | (c1, c2) :: rest, acc =>
    match hexVal c1, hexVal c2 with
    | some v1, some v2 => hammingLoop rest (acc + popcount (v1 ^^^ v2))
    | _, _ => none

/-- Guard of `hamming_distance` (line 109): either hash empty, or lengths
differ. -/
def hammingGuard (h1 h2 : List Char) : Prop :=
  h1 = [] ∨ h2 = [] ∨ h1.length ≠ h2.length

instance (h1 h2 : List Char) : Decidable (hammingGuard h1 h2) := by
  unfold hammingGuard; infer_instance

/-- `DuplicateDetectionAgent.hamming_distance` (lines 98-118).
Returns `some 999` when the guard fires, `none` when the Python code would
raise (a compared character is not a hexadecimal digit), and `some` of the
bit distance otherwise. -/
def hamming_distance (h1 h2 : List Char) : Option Nat :=
  if hammingGuard h1 h2 then some 999
  else hammingLoop (h1.zip h2) 0

/-- A string consists entirely of hexadecimal digits (vacuously true of the
empty sentinel). Every hash reaching the grouping stage satisfies this:
`compute_hash` yields either `str(imagehash...)` hex output or `""`. -/
def allHex (l : List Char) : Prop := ∀ c ∈ l, (hexVal c).isSome = true

instance (l : List Char) : Decidable (allHex l) := by
  unfold allHex; infer_instance

/-- Total restriction of `hamming_distance` used inside the grouping
embedding. On every input actually produced by `compute_hash` (hex strings
or the empty sentinel) it agrees with `hamming_distance`
(theorem `hamming_distance_eq_hammingRun`). -/
def hammingRun (h1 h2 : List Char) : Nat :=
  if hammingGuard h1 h2 then 999
  else (h1.zip h2).foldl
    (fun acc p => acc + popcount (((hexVal p.1).getD 0) ^^^ ((hexVal p.2).getD 0))) 0

/-- The three similarity tiers of `find_similar_groups` (lines 163-171). -/
inductive SimType where
  | duplicate
  | nearDuplicate
  | similar
deriving DecidableEq

/-- Tier classification of a pairwise minimum distance (lines 163-171);
`t` is `self.hash_threshold` (config default 10). `none` is the `continue`
branch: the candidate is excluded from the seed's group. -/
def classify (t : Nat) (d : Nat) : Option SimType :=
  if d ≤ 5 then some SimType.duplicate
  else if d ≤ t then some SimType.nearDuplicate
  else if d ≤ 15 then some SimType.similar
  else none

/-- Entry of the `image_data` list assembled by `DuplicateDetectionAgent.run`
(lines 278-287): identifier, the three hashes, quality and aesthetic scores,
and pixel count. -/
structure ImgRec where
  image_id : String
  phash : List Char
  dhash : List Char
  ahash : List Char
  technical_score : Int
  aesthetic_score : Int
  resolution : Int
deriving DecidableEq

/-- Minimum of the three per-family Hamming distances
(`min(phash_dist, dhash_dist, ahash_dist)`, lines 156-161). -/
def minDistance (r1 r2 : ImgRec) : Nat :=
  min (hammingRun r1.phash r2.phash)
    (min (hammingRun r1.dhash r2.dhash) (hammingRun r1.ahash r2.ahash))

/-- Scored entry built by `select_best_image` (lines 222-226). -/
structure Scored where
  image_id : String
  score : ℚ
  resolution : Int
deriving DecidableEq

/-- Sort order of `scored_images.sort(key=lambda x: (x['score'],
x['resolution']), reverse=True)`: `x` may precede `y` iff the key of `x` is
lexicographically at least the key of `y`. A stable sort under this relation
is exactly Python's stable descending sort. -/
def scoreKeyLE (x y : Scored) : Bool :=
  decide (y.score < x.score ∨ (y.score = x.score ∧ y.resolution ≤ x.resolution))

/-- Lookup in `data_map = {img['image_id']: img for img in image_data}`:
a dict comprehension keeps the last record for a duplicated key. -/
def lookupRec (image_data : List ImgRec) (id : String) : Option ImgRec :=
  image_data.reverse.find? (fun r => r.image_id == id)

/-- The combined score of `select_best_image` (line 220): the
double-precision value of `technical * 0.4 + aesthetic * 0.6` as Python
computes it. Faithful to binary64 for the pipeline's integer scores 1..5
(the binade split of `roundDouble` covers all intermediates there). -/
def combinedScore (r : ImgRec) : ℚ :=
  floatAdd (floatMul (r.technical_score : ℚ) c04)
    (floatMul (r.aesthetic_score : ℚ) c06)

/-- The exact-arithmetic combined score `0.4*quality + 0.6*aesthetic` that
the spec's words describe; follows the spec, not the source (which computes
in doubles). Used in C3's counterexample to exhibit exact ties the float
computation orders strictly. -/
def combinedScoreSpec (r : ImgRec) : ℚ :=
  (r.technical_score : ℚ) * (4 / 10) + (r.aesthetic_score : ℚ) * (6 / 10)

/-- Stable descending insertion: place `a` before the first element it may
precede under `scoreKeyLE` (so, strictly after every strictly better element
and before every tied or worse one — the unique stable position). -/
def insertScored (a : Scored) : List Scored → List Scored
  | [] => [a]
  | b :: l => if scoreKeyLE a b then a :: b :: l else b :: insertScored a l

/-- Stable sort under `scoreKeyLE`: the semantics of the source's
`scored_images.sort(key=lambda x: (x['score'], x['resolution']),
reverse=True)`, whose output (descending by key, ties in original order) is
the unique stable-sorted permutation. -/
def sortScored : List Scored → List Scored
  | [] => []
  | a :: l => insertScored a (sortScored l)

/-- `DuplicateDetectionAgent.select_best_image` (lines 190-231): score the
group members found in `image_data`, stable-sort descending by
`(score, resolution)`, return the first; an empty scored list falls back to
`image_ids[0]` (`none` models the `IndexError` when `image_ids` is also
empty). -/
def select_best_image (image_ids : List String) (image_data : List ImgRec) :
    Option String :=
  let scored := image_ids.filterMap (fun id =>
    (lookupRec image_data id).map (fun r => Scored.mk id (combinedScore r) r.resolution))
  match (sortScored scored).head? with
  | some x => some x.image_id
  | none => image_ids.head?

/-- The scored entry `select_best_image` builds for a member id whose record
is present; arbitrary placeholder otherwise (used only to state proofs about
the `filterMap`). -/
def scoredOf (image_data : List ImgRec) (id : String) : Scored :=
  match lookupRec image_data id with
  | some r => Scored.mk id (combinedScore r) r.resolution
  | none => Scored.mk id 0 0

/-- Group record under construction in `find_similar_groups` (lines 143-148,
173-177): the members absorbed after the seed, and the last-written
similarity type and metric. -/
structure ScanState where
  members : List String
  simType : SimType
  metric : ℚ
deriving DecidableEq

/-- Inner loop of `find_similar_groups` (lines 151-177): scan the images
after the seed; skip already-grouped ones; classify each remaining one by the
minimum hash distance; on a match append it to the group, overwrite the
group's type and metric with this pair's values, and mark it grouped. -/
def scanCandidates (t : Nat) (seed : ImgRec) :
    List ImgRec → List String → ScanState → ScanState × List String
  | [], grouped, st => (st, grouped)
  | c :: cs, grouped, st =>
    if c.image_id ∈ grouped then scanCandidates t seed cs grouped st
    else
      match classify t (minDistance seed c) with
      | none => scanCandidates t seed cs grouped st
      | some ty =>
        scanCandidates t seed cs (c.image_id :: grouped)
          ⟨st.members ++ [c.image_id], ty, ((minDistance seed c : ℚ))⟩

/-- Emitted similarity group (lines 143-148, 183). -/
structure SimGroup where
  group_id : String
  image_ids : List String
  similarity_type : SimType
  similarity_metric : ℚ
  selected_best : Option String
deriving DecidableEq

/-- Outer loop of `find_similar_groups` (lines 138-188): each image not yet
grouped seeds a scan of the later images; a group is emitted only when at
least one candidate was absorbed, and only then is the seed itself marked
grouped and the counter advanced. -/
def fsgAux (t : Nat) (all : List ImgRec) :
    List ImgRec → List String → Nat → List SimGroup
  | [], _, _ => []
  | seed :: rest, grouped, ctr =>
    if seed.image_id ∈ grouped then fsgAux t all rest grouped ctr
    else
      match scanCandidates t seed rest grouped ⟨[], SimType.duplicate, 0⟩ with
      | (st, grouped2) =>
        if st.members = [] then fsgAux t all rest grouped2 ctr
        else
          { group_id := "group_" ++ toString ctr,
            image_ids := seed.image_id :: st.members,
            similarity_type := st.simType,
            similarity_metric := st.metric,
            selected_best := select_best_image (seed.image_id :: st.members) all }
          :: fsgAux t all rest (seed.image_id :: grouped2) (ctr + 1)

/-- `DuplicateDetectionAgent.find_similar_groups` (lines 120-188).
`t` is the configured `hash_threshold` (default 10). -/
def find_similar_groups (t : Nat) (image_data : List ImgRec) : List SimGroup :=
  fsgAux t image_data image_data [] 0

/-- `DuplicateDetectionAgent.compute_hash` (lines 66-96). The argument is the
result of the PIL/imagehash computation (`none` when it raises); on failure
all three hashes are the empty sentinel and a `HashError` is logged (the
returned flag). The method never re-raises, so the batch never aborts. -/
def compute_hash (r : Option (List Char × List Char × List Char)) :
    (List Char × List Char × List Char) × Bool :=
  match r with
  | some h => (h, false)
  | none => (([], [], []), true)

/-- Round half away from zero, the rounding mode the spec names for the
composite quality score. Stated for the refinement comparison of claim C4;
follows the spec's words, not the source. -/
def roundHalfAway (x : ℚ) : Int :=
  if x < 0 then -⌊-x + 1 / 2⌋ else ⌊x + 1 / 2⌋

/-- The composite the spec's words describe for C4: round half away from
zero, then clamp to [1,5]. Follows the spec, not the source. -/
def compositeSpec (s e n r : Int) : Int :=
  max 1 (min 5 (roundHalfAway
    ((s : ℚ) * 0.35 + (e : ℚ) * 0.30 + (n : ℚ) * 0.20 + (r : ℚ) * 0.15)))

/-- The double-precision weighted sum
`sharpness_score * 0.35 + exposure_score * 0.30 + noise_score * 0.20 +
resolution_score * 0.15` (lines 272-277), evaluated left to right as Python
does, each operation correctly rounded. -/
def wsumF (s e n r : Int) : ℚ :=
  floatAdd (floatAdd (floatAdd (floatMul (s : ℚ) c35) (floatMul (e : ℚ) c30))
    (floatMul (n : ℚ) c20)) (floatMul (r : ℚ) c15)

/-- The composite quality score the source computes
(`quality_assessment.py` lines 272-277): `int(round(...))` of the
double-precision weighted sum, with no clamping. -/
def composite (s e n r : Int) : Int :=
  pyRound (wsumF s e n r)

/-- Measured quantities of one decoded image, as delivered by the external
cv2/numpy collaborators inside `process_image`: the Laplacian variance, the
high/low clipping percentages, the noise standard deviation, and the pixel
dimensions. A `none` marks the corresponding sub-metric computation raising,
exactly where the source wraps it in `try/except`. -/
structure QImage where
  sharpnessVar : Option ℚ
  exposurePcts : Option (ℚ × ℚ)
  noiseStd : Option ℚ
  width : Nat
  height : Nat

/-- `QualityAssessmentAgent.assess_sharpness` (lines 62-99): band the
Laplacian variance into a 1-5 score; on an exception return the neutral
`(3, 0.0)`. -/
def assess_sharpness (v : Option ℚ) : Int × ℚ :=
  match v with
  | none => (3, 0)
  | some variance =>
    ((if 500 < variance then 5
      else if 300 < variance then 4
      else if 150 < variance then 3
      else if 75 < variance then 2
      else 1), variance)

/-- `QualityAssessmentAgent.assess_exposure` (lines 101-158): flag
over/under-exposure from the clipping percentages and band the total
clipping into a 1-5 score; on an exception return `(3, 0.0, [])`. -/
def assess_exposure (p : Option (ℚ × ℚ)) : Int × ℚ × List String :=
  match p with
  | none => (3, 0, [])
  | some (highPercent, lowPercent) =>
    let issues := (if 5 < highPercent then ["overexposed"] else []) ++
      (if 10 < lowPercent then ["underexposed"] else [])
    let totalClipping := highPercent + lowPercent
    ((if totalClipping < 1 then 5
      else if totalClipping < 3 then 4
      else if totalClipping < 8 then 3
      else if totalClipping < 15 then 2
      else 1), totalClipping, issues)

/-- `QualityAssessmentAgent.assess_noise` (lines 160-197): band the residual
standard deviation into a 1-5 score; on an exception return `(3, 0.0)`. -/
def assess_noise (v : Option ℚ) : Int × ℚ :=
  match v with
  | none => (3, 0)
  | some noise =>
    ((if noise < 5 then 5
      else if noise < 10 then 4
      else if noise < 15 then 3
      else if noise < 25 then 2
      else 1), noise)

/-- `QualityAssessmentAgent.assess_resolution` (lines 199-229); `minPixels`
is `thresholds.min_resolution_pixels` (default 2,000,000). This sub-metric
has no exception path in the source. -/
def assess_resolution (width height minPixels : Nat) : Int × List String :=
  let totalPixels := width * height
  let issues := if totalPixels < minPixels then ["low_resolution"] else []
  ((if 24000000 ≤ totalPixels then 5
    else if 12000000 ≤ totalPixels then 4
    else if 8000000 ≤ totalPixels then 3
    else if minPixels ≤ totalPixels then 2
    else 1), issues)

/-- Output record of `process_image` (lines 280-293 and 316-329). -/
structure Assessment where
  image_id : String
  quality_score : Int
  sharpness : Int
  exposure : Int
  noise : Int
  resolution : Int
  issues : List String
  blur_variance : ℚ
  histogram_clipping_percent : ℚ
  snr_db : ℚ

/-- `QualityAssessmentAgent.process_image` (lines 231-329). The argument is
`none` when the image fails to decode (`cv2.imread` returning `None` or the
colour conversion raising): that outer exception path emits the all-3s
record flagged `"processing_error"`. Otherwise the four sub-metrics are
assessed, issue flags are collected in source order, and the composite is
computed from the four sub-scores. -/
def process_image (minPixels : Nat) (image_id : String) (img : Option QImage) :
    Assessment :=
  match img with
  | none =>
    { image_id := image_id, quality_score := 3, sharpness := 3, exposure := 3,
      noise := 3, resolution := 3, issues := ["processing_error"],
      blur_variance := 0, histogram_clipping_percent := 0, snr_db := 0 }
  | some d =>
    let sh := assess_sharpness d.sharpnessVar
    let ex := assess_exposure d.exposurePcts
    let nz := assess_noise d.noiseStd
    let rs := assess_resolution d.width d.height minPixels
    { image_id := image_id,
      quality_score := composite sh.1 ex.1 nz.1 rs.1,
      sharpness := sh.1, exposure := ex.1, noise := nz.1, resolution := rs.1,
      issues := ex.2.2 ++ rs.2 ++
        (if sh.1 ≤ 2 then ["motion_blur"] else []) ++
        (if nz.1 ≤ 2 then ["high_noise"] else []),
      blur_variance := sh.2, histogram_clipping_percent := ex.2.1,
      snr_db := nz.2 }

/-- Concrete batch for witnesses and counterexamples: seed image with hash
`0000` in all three families. -/
def recA : ImgRec :=
  ⟨"a", ['0', '0', '0', '0'], ['0', '0', '0', '0'], ['0', '0', '0', '0'], 3, 3, 0⟩

/-- Image at Hamming distance 3 from `recA` in every family (duplicate tier). -/
def recB : ImgRec :=
  ⟨"b", ['0', '0', '0', '7'], ['0', '0', '0', '7'], ['0', '0', '0', '7'], 3, 3, 0⟩

/-- Image at Hamming distance 12 from `recA` in every family (similar tier). -/
def recC : ImgRec :=
  ⟨"c", ['0', 'f', 'f', 'f'], ['0', 'f', 'f', 'f'], ['0', 'f', 'f', 'f'], 3, 3, 0⟩

/-- Image whose three hash computations all failed: the all-sentinel record. -/
def recS : ImgRec := ⟨"s", [], [], [], 3, 3, 0⟩

theorem hexVal_isSome_elim {c : Char} (h : (hexVal c).isSome = true) :
    ∃ v, hexVal c = some v := by
  cases hv : hexVal c with
  | none => rw [hv] at h; simp at h
  | some v => exact ⟨v, rfl⟩

theorem popcount_zero : popcount 0 = 0 := by
  unfold popcount; rfl

theorem hammingLoop_symm (l : List (Char × Char)) (acc : Nat) :
    hammingLoop l acc = hammingLoop (l.map (fun p => (p.2, p.1))) acc := by
  induction l generalizing acc with
  | nil => rfl
  | cons p rest ih =>
    obtain ⟨c1, c2⟩ := p
    simp only [List.map_cons, hammingLoop]
    cases h1 : hexVal c1 <;> cases h2 : hexVal c2 <;> simp only []
    all_goals first
      | rfl
      | (rw [Nat.xor_comm]; exact ih _)

theorem hammingLoop_diag {l : List Char} (hhex : allHex l) (acc : Nat) :
    hammingLoop (l.zip l) acc = some acc := by
  induction l generalizing acc with
  | nil => rfl
  | cons c rest ih =>
    obtain ⟨v, hv⟩ := hexVal_isSome_elim (hhex c (List.mem_cons_self c rest))
    simp only [List.zip_cons_cons, hammingLoop, hv]
    rw [Nat.xor_self]
    have : acc + popcount 0 = acc := by rw [popcount_zero, Nat.add_zero]
    rw [this]
    exact ih (fun c hc => hhex c (List.mem_cons_of_mem _ hc)) acc

theorem hammingGuard_symm (h1 h2 : List Char) :
    hammingGuard h1 h2 ↔ hammingGuard h2 h1 := by
  unfold hammingGuard
  constructor <;> (rintro (h | h | h) <;> [exact Or.inr (Or.inl h); exact Or.inl h; exact Or.inr (Or.inr (fun e => h e.symm))])

theorem zip_swap (l1 l2 : List Char) :
    l2.zip l1 = (l1.zip l2).map (fun p => (p.2, p.1)) := by
  induction l1 generalizing l2 with
  | nil => cases l2 <;> rfl
  | cons a t ih =>
    cases l2 with
    | nil => rfl
    | cons b t2 => simp only [List.zip_cons_cons, List.map_cons]; rw [ih]

theorem hamming_distance_symm (a b : List Char) :
    hamming_distance a b = hamming_distance b a := by
  unfold hamming_distance
  by_cases hg : hammingGuard a b
  · rw [if_pos hg, if_pos ((hammingGuard_symm a b).mp hg)]
  · rw [if_neg hg, if_neg (fun h => hg ((hammingGuard_symm b a).mp h))]
    rw [zip_swap b a, ← hammingLoop_symm]

theorem hamming_distance_diag {a : List Char} (hne : a ≠ []) (hhex : allHex a) :
    hamming_distance a a = some 0 := by
  unfold hamming_distance
  rw [if_neg, hammingLoop_diag hhex]
  unfold hammingGuard
  simp [hne]

theorem hammingLoop_eq_foldl {l : List (Char × Char)}
    (h : ∀ p ∈ l, (hexVal p.1).isSome = true ∧ (hexVal p.2).isSome = true)
    (acc : Nat) :
    hammingLoop l acc =
      some (l.foldl (fun acc p =>
        acc + popcount (((hexVal p.1).getD 0) ^^^ ((hexVal p.2).getD 0))) acc) := by
  induction l generalizing acc with
  | nil => rfl
  | cons p rest ih =>
    obtain ⟨c1, c2⟩ := p
    obtain ⟨hs1, hs2⟩ := h (c1, c2) (List.mem_cons_self _ _)
    obtain ⟨v1, hv1⟩ := hexVal_isSome_elim hs1
    obtain ⟨v2, hv2⟩ := hexVal_isSome_elim hs2
    simp only [hammingLoop, List.foldl_cons, hv1, hv2, Option.getD_some]
    exact ih (fun q hq => h q (List.mem_cons_of_mem _ hq)) _

/-- On every input the pipeline can produce (hex strings or the empty
sentinel), the total function `hammingRun` used in the grouping embedding
agrees with the faithful `hamming_distance`. -/
theorem hamming_distance_eq_hammingRun {h1 h2 : List Char}
    (hx1 : allHex h1) (hx2 : allHex h2) :
    hamming_distance h1 h2 = some (hammingRun h1 h2) := by
  unfold hamming_distance hammingRun
  by_cases hg : hammingGuard h1 h2
  · rw [if_pos hg, if_pos hg]
  · rw [if_neg hg, if_neg hg]
    apply hammingLoop_eq_foldl
    intro p hp
    obtain ⟨hp1, hp2⟩ := List.of_mem_zip hp
    exact ⟨hx1 _ hp1, hx2 _ hp2⟩

/-- C5 (counterexample): on the empty sentinel the source returns the
incomparable constant, so `distance(a,a)=0` fails at `a = ""`. -/
theorem hamming_distance_empty_not_zero :
    hamming_distance [] [] = some 999 ∧ hamming_distance [] [] ≠ some 0 := by
  constructor
  · rfl
  · decide

/-- C5 (amended): `hamming_distance` is symmetric on all inputs (including
raising ones), and `distance(a,a)=0` holds for every non-empty hexadecimal
hash string; the empty sentinel instead yields the incomparable constant
999. -/
theorem hamming_distance_symm_and_diag :
    (∀ a b : List Char, hamming_distance a b = hamming_distance b a)
    ∧ (∀ a : List Char, a ≠ [] → allHex a → hamming_distance a a = some 0)
    ∧ hamming_distance [] [] = some 999 :=
  ⟨hamming_distance_symm, fun _ hne hhex => hamming_distance_diag hne hhex, rfl⟩

/-- Witness for C5's amended theorem at the concrete hash `"a0"`. -/
theorem hamming_distance_symm_and_diag_witness :
    hamming_distance ['a', '0'] ['a', '0'] = some 0 :=
  hamming_distance_symm_and_diag.2.1 ['a', '0'] (by decide) (by decide)

theorem pyRound_bounds {x : ℚ} {a b : Int} (ha : (a : ℚ) ≤ x) (hb : x ≤ (b : ℚ)) :
    a ≤ pyRound x ∧ pyRound x ≤ b := by
  have hfa : a ≤ ⌊x⌋ := Int.le_floor.mpr ha
  have hfb : ⌊x⌋ ≤ b := by
    have := Int.floor_le_floor hb
    rwa [Int.floor_intCast] at this
  have hsucc : 1 / 2 ≤ x - (⌊x⌋ : ℚ) → ⌊x⌋ + 1 ≤ b := by
    intro hr
    by_contra hcon
    push_neg at hcon
    have hfb' : ⌊x⌋ = b := le_antisymm hfb (by omega)
    have : x ≤ (⌊x⌋ : ℚ) := by rw [hfb']; exact hb
    linarith
  unfold pyRound
  split_ifs with h1 h2 h3
  · exact ⟨hfa, hfb⟩
  · exact ⟨by omega, hsucc (le_of_lt h2)⟩
  · exact ⟨hfa, hfb⟩
  · exact ⟨by omega, hsucc (by linarith)⟩

theorem pyRound_close (x : ℚ) :
    x - 1 / 2 ≤ (pyRound x : ℚ) ∧ (pyRound x : ℚ) ≤ x + 1 / 2 := by
  have hfl : ((⌊x⌋ : Int) : ℚ) ≤ x := Int.floor_le x
  have hfu : x < (⌊x⌋ : ℚ) + 1 := Int.lt_floor_add_one x
  unfold pyRound
  split_ifs with h1 h2 h3
  · constructor <;> linarith
  · constructor <;> push_cast <;> linarith
  · have hr : x - (⌊x⌋ : ℚ) = 1 / 2 := le_antisymm (not_lt.mp h2) (not_lt.mp h1)
    constructor <;> linarith
  · have hr : x - (⌊x⌋ : ℚ) = 1 / 2 := le_antisymm (not_lt.mp h2) (not_lt.mp h1)
    constructor <;> push_cast <;> linarith

theorem pyRound_ge {x : ℚ} {a : Int} (h : (a : ℚ) - 1 / 2 < x) :
    a ≤ pyRound x := by
  have hc := (pyRound_close x).1
  have h2 : (a : ℚ) < (pyRound x : ℚ) + 1 := by linarith
  have h3 : a < pyRound x + 1 := by exact_mod_cast h2
  omega

theorem pyRound_le {x : ℚ} {b : Int} (h : x < (b : ℚ) + 1 / 2) :
    pyRound x ≤ b := by
  have hc := (pyRound_close x).2
  have h2 : (pyRound x : ℚ) < (b : ℚ) + 1 := by linarith
  have h3 : pyRound x < b + 1 := by exact_mod_cast h2
  omega

theorem roundDouble_close {q : ℚ} (hlo : 1 / 8 ≤ q) (_hhi : q < 8) :
    q - 1 / 2 ^ 50 ≤ roundDouble q ∧ roundDouble q ≤ q + 1 / 2 ^ 50 := by
  unfold roundDouble
  split_ifs with h1 h2 h3 h4 h5
  · obtain ⟨hl, hu⟩ := pyRound_close (q * 2 ^ 55)
    constructor
    · rw [le_div_iff₀ (by norm_num : (0 : ℚ) < 2 ^ 55)]; linarith
    · rw [div_le_iff₀ (by norm_num : (0 : ℚ) < 2 ^ 55)]; linarith
  · obtain ⟨hl, hu⟩ := pyRound_close (q * 2 ^ 54)
    constructor
    · rw [le_div_iff₀ (by norm_num : (0 : ℚ) < 2 ^ 54)]; linarith
    · rw [div_le_iff₀ (by norm_num : (0 : ℚ) < 2 ^ 54)]; linarith
  · obtain ⟨hl, hu⟩ := pyRound_close (q * 2 ^ 53)
    constructor
    · rw [le_div_iff₀ (by norm_num : (0 : ℚ) < 2 ^ 53)]; linarith
    · rw [div_le_iff₀ (by norm_num : (0 : ℚ) < 2 ^ 53)]; linarith
  · obtain ⟨hl, hu⟩ := pyRound_close (q * 2 ^ 52)
    constructor
    · rw [le_div_iff₀ (by norm_num : (0 : ℚ) < 2 ^ 52)]; linarith
    · rw [div_le_iff₀ (by norm_num : (0 : ℚ) < 2 ^ 52)]; linarith
  · obtain ⟨hl, hu⟩ := pyRound_close (q * 2 ^ 51)
    constructor
    · rw [le_div_iff₀ (by norm_num : (0 : ℚ) < 2 ^ 51)]; linarith
    · rw [div_le_iff₀ (by norm_num : (0 : ℚ) < 2 ^ 51)]; linarith
  · obtain ⟨hl, hu⟩ := pyRound_close (q * 2 ^ 50)
    constructor
    · rw [le_div_iff₀ (by norm_num : (0 : ℚ) < 2 ^ 50)]; linarith
    · rw [div_le_iff₀ (by norm_num : (0 : ℚ) < 2 ^ 50)]; linarith

theorem intervalMul {x c lo hi cl ch : ℚ} (hx1 : lo ≤ x) (hx2 : x ≤ hi)
    (hc1 : cl ≤ c) (hc2 : c ≤ ch) (hlo : 0 ≤ lo) (hcl : 0 ≤ cl) :
    lo * cl ≤ x * c ∧ x * c ≤ hi * ch := by
  constructor
  · exact mul_le_mul hx1 hc1 hcl (le_trans hlo hx1)
  · exact mul_le_mul hx2 hc2 (le_trans hcl hc1)
      (le_trans hlo (le_trans hx1 hx2))

theorem wsumF_bounds {s e n r : Int} (hs1 : 1 ≤ s) (hs5 : s ≤ 5)
    (he1 : 1 ≤ e) (he5 : e ≤ 5) (hn1 : 1 ≤ n) (hn5 : n ≤ 5)
    (hr1 : 1 ≤ r) (hr5 : r ≤ 5) :
    9 / 10 ≤ wsumF s e n r ∧ wsumF s e n r ≤ 53 / 10 := by
  have hs1' : (1 : ℚ) ≤ (s : ℚ) := by exact_mod_cast hs1
  have hs5' : (s : ℚ) ≤ 5 := by exact_mod_cast hs5
  have he1' : (1 : ℚ) ≤ (e : ℚ) := by exact_mod_cast he1
  have he5' : (e : ℚ) ≤ 5 := by exact_mod_cast he5
  have hn1' : (1 : ℚ) ≤ (n : ℚ) := by exact_mod_cast hn1
  have hn5' : (n : ℚ) ≤ 5 := by exact_mod_cast hn5
  have hr1' : (1 : ℚ) ≤ (r : ℚ) := by exact_mod_cast hr1
  have hr5' : (r : ℚ) ≤ 5 := by exact_mod_cast hr5
  have hP1 := intervalMul hs1' hs5' (show (34 : ℚ) / 100 ≤ c35 by norm_num [c35])
    (show c35 ≤ (36 : ℚ) / 100 by norm_num [c35]) (by norm_num) (by norm_num)
  have hP2 := intervalMul he1' he5' (show (29 : ℚ) / 100 ≤ c30 by norm_num [c30])
    (show c30 ≤ (31 : ℚ) / 100 by norm_num [c30]) (by norm_num) (by norm_num)
  have hP3 := intervalMul hn1' hn5' (show (19 : ℚ) / 100 ≤ c20 by norm_num [c20])
    (show c20 ≤ (21 : ℚ) / 100 by norm_num [c20]) (by norm_num) (by norm_num)
  have hP4 := intervalMul hr1' hr5' (show (14 : ℚ) / 100 ≤ c15 by norm_num [c15])
    (show c15 ≤ (16 : ℚ) / 100 by norm_num [c15]) (by norm_num) (by norm_num)
  have hA := roundDouble_close
    (show (1 : ℚ) / 8 ≤ (s : ℚ) * c35 by linarith [hP1.1])
    (show (s : ℚ) * c35 < 8 by linarith [hP1.2])
  have hB := roundDouble_close
    (show (1 : ℚ) / 8 ≤ (e : ℚ) * c30 by linarith [hP2.1])
    (show (e : ℚ) * c30 < 8 by linarith [hP2.2])
  have hC := roundDouble_close
    (show (1 : ℚ) / 8 ≤ (n : ℚ) * c20 by linarith [hP3.1])
    (show (n : ℚ) * c20 < 8 by linarith [hP3.2])
  have hD := roundDouble_close
    (show (1 : ℚ) / 8 ≤ (r : ℚ) * c15 by linarith [hP4.1])
    (show (r : ℚ) * c15 < 8 by linarith [hP4.2])
  have hAB := roundDouble_close
    (show (1 : ℚ) / 8 ≤ roundDouble ((s : ℚ) * c35) + roundDouble ((e : ℚ) * c30) by
      linarith [hA.1, hB.1, hP1.1, hP2.1])
    (show roundDouble ((s : ℚ) * c35) + roundDouble ((e : ℚ) * c30) < 8 by
      linarith [hA.2, hB.2, hP1.2, hP2.2])
  have hABC := roundDouble_close
    (show (1 : ℚ) / 8 ≤ roundDouble (roundDouble ((s : ℚ) * c35) +
        roundDouble ((e : ℚ) * c30)) + roundDouble ((n : ℚ) * c20) by
      linarith [hAB.1, hA.1, hB.1, hC.1, hP1.1, hP2.1, hP3.1])
    (show roundDouble (roundDouble ((s : ℚ) * c35) +
        roundDouble ((e : ℚ) * c30)) + roundDouble ((n : ℚ) * c20) < 8 by
      linarith [hAB.2, hA.2, hB.2, hC.2, hP1.2, hP2.2, hP3.2])
  have hFin := roundDouble_close
    (show (1 : ℚ) / 8 ≤ roundDouble (roundDouble (roundDouble ((s : ℚ) * c35) +
        roundDouble ((e : ℚ) * c30)) + roundDouble ((n : ℚ) * c20)) +
        roundDouble ((r : ℚ) * c15) by
      linarith [hABC.1, hAB.1, hA.1, hB.1, hC.1, hD.1, hP1.1, hP2.1, hP3.1, hP4.1])
    (show roundDouble (roundDouble (roundDouble ((s : ℚ) * c35) +
        roundDouble ((e : ℚ) * c30)) + roundDouble ((n : ℚ) * c20)) +
        roundDouble ((r : ℚ) * c15) < 8 by
      linarith [hABC.2, hAB.2, hA.2, hB.2, hC.2, hD.2, hP1.2, hP2.2, hP3.2, hP4.2])
  constructor
  · simp only [wsumF, floatAdd, floatMul]
    linarith [hFin.1, hABC.1, hAB.1, hA.1, hB.1, hC.1, hD.1,
      hP1.1, hP2.1, hP3.1, hP4.1]
  · simp only [wsumF, floatAdd, floatMul]
    linarith [hFin.2, hABC.2, hAB.2, hA.2, hB.2, hC.2, hD.2,
      hP1.2, hP2.2, hP3.2, hP4.2]

/-- C4 (counterexample): the claimed composite - round half away from zero
of the exact weighted sum, clamped - disagrees with the source twice over:
at sub-scores `(2, 3, 3, 2)` the double sum is exactly 2.5 and Python's
half-to-even round yields 2 where the claim says 3, and at `(1, 1, 2, 3)`
the double sum is 1.4999999999999998, one ulp below the exact 1.5, so the
code yields 1 where the claim says 2. -/
theorem composite_round_mode_counterexample :
    composite 2 3 3 2 = 2 ∧ compositeSpec 2 3 3 2 = 3
    ∧ composite 1 1 2 3 = 1 ∧ compositeSpec 1 1 2 3 = 2 := by
  refine ⟨?_, ?_, ?_, ?_⟩
  · norm_num [composite, wsumF, floatAdd, floatMul, roundDouble, pyRound,
      c35, c30, c20, c15]
  · norm_num [compositeSpec, roundHalfAway]
  · norm_num [composite, wsumF, floatAdd, floatMul, roundDouble, pyRound,
      c35, c30, c20, c15]
  · norm_num [compositeSpec, roundHalfAway]

theorem composite_mem {s e n r : Int}
    (hs1 : 1 ≤ s) (hs5 : s ≤ 5) (he1 : 1 ≤ e) (he5 : e ≤ 5)
    (hn1 : 1 ≤ n) (hn5 : n ≤ 5) (hr1 : 1 ≤ r) (hr5 : r ≤ 5) :
    1 ≤ composite s e n r ∧ composite s e n r ≤ 5 := by
  obtain ⟨hl, hu⟩ := wsumF_bounds hs1 hs5 he1 he5 hn1 hn5 hr1 hr5
  unfold composite
  constructor
  · exact pyRound_ge (by norm_num; linarith)
  · exact pyRound_le (by norm_num; linarith)

/-- C4 (amended): for sub-scores in 1..5 the composite quality score is
Python's round - half to even - applied to the double-precision weighted
sum; the value always lies in [1,5], so the clamp the spec mentions is a
no-op (the source has none). -/
theorem composite_half_even (s e n r : Int)
    (hs1 : 1 ≤ s) (hs5 : s ≤ 5) (he1 : 1 ≤ e) (he5 : e ≤ 5)
    (hn1 : 1 ≤ n) (hn5 : n ≤ 5) (hr1 : 1 ≤ r) (hr5 : r ≤ 5) :
    composite s e n r = max 1 (min 5 (pyRound (wsumF s e n r)))
    ∧ 1 ≤ composite s e n r ∧ composite s e n r ≤ 5 := by
  obtain ⟨h1, h5⟩ := composite_mem hs1 hs5 he1 he5 hn1 hn5 hr1 hr5
  refine ⟨?_, h1, h5⟩
  have heq : composite s e n r = pyRound (wsumF s e n r) := rfl
  omega

/-- Witness for C4's amended theorem at sub-scores `(2, 3, 3, 2)`. -/
theorem composite_half_even_witness :
    composite 2 3 3 2 = max 1 (min 5 (pyRound (wsumF 2 3 3 2)))
    ∧ 1 ≤ composite 2 3 3 2 ∧ composite 2 3 3 2 ≤ 5 :=
  composite_half_even 2 3 3 2 (by decide) (by decide) (by decide) (by decide)
    (by decide) (by decide) (by decide) (by decide)

theorem assess_sharpness_range (v : Option ℚ) :
    1 ≤ (assess_sharpness v).1 ∧ (assess_sharpness v).1 ≤ 5 := by
  cases v with
  | none => exact ⟨by norm_num [assess_sharpness], by norm_num [assess_sharpness]⟩
  | some x =>
    simp only [assess_sharpness]
    split_ifs <;> norm_num

theorem assess_exposure_range (p : Option (ℚ × ℚ)) :
    1 ≤ (assess_exposure p).1 ∧ (assess_exposure p).1 ≤ 5 := by
  cases p with
  | none => exact ⟨by norm_num [assess_exposure], by norm_num [assess_exposure]⟩
  | some pr =>
    obtain ⟨hi, lo⟩ := pr
    simp only [assess_exposure]
    split_ifs <;> norm_num

theorem assess_noise_range (v : Option ℚ) :
    1 ≤ (assess_noise v).1 ∧ (assess_noise v).1 ≤ 5 := by
  cases v with
  | none => exact ⟨by norm_num [assess_noise], by norm_num [assess_noise]⟩
  | some x =>
    simp only [assess_noise]
    split_ifs <;> norm_num

theorem assess_resolution_range (w h m : Nat) :
    1 ≤ (assess_resolution w h m).1 ∧ (assess_resolution w h m).1 ≤ 5 := by
  simp only [assess_resolution]
  split_ifs <;> norm_num

/-- C7: every score field of every record `process_image` emits is an
integer in 1..5, on successfully decoded images, on decode failures, and on
sub-metric exceptions alike. -/
theorem process_image_scores_in_range (minPixels : Nat) (id : String)
    (img : Option QImage) :
    (1 ≤ (process_image minPixels id img).quality_score
      ∧ (process_image minPixels id img).quality_score ≤ 5)
    ∧ (1 ≤ (process_image minPixels id img).sharpness
      ∧ (process_image minPixels id img).sharpness ≤ 5)
    ∧ (1 ≤ (process_image minPixels id img).exposure
      ∧ (process_image minPixels id img).exposure ≤ 5)
    ∧ (1 ≤ (process_image minPixels id img).noise
      ∧ (process_image minPixels id img).noise ≤ 5)
    ∧ (1 ≤ (process_image minPixels id img).resolution
      ∧ (process_image minPixels id img).resolution ≤ 5) := by
  cases img with
  | none =>
    refine ⟨⟨?_, ?_⟩, ⟨?_, ?_⟩, ⟨?_, ?_⟩, ⟨?_, ?_⟩, ⟨?_, ?_⟩⟩ <;>
      norm_num [process_image]
  | some d =>
    obtain ⟨hsh1, hsh5⟩ := assess_sharpness_range d.sharpnessVar
    obtain ⟨hex1, hex5⟩ := assess_exposure_range d.exposurePcts
    obtain ⟨hnz1, hnz5⟩ := assess_noise_range d.noiseStd
    obtain ⟨hrs1, hrs5⟩ := assess_resolution_range d.width d.height minPixels
    obtain ⟨hq1, hq5⟩ := composite_mem hsh1 hsh5 hex1 hex5 hnz1 hnz5 hrs1 hrs5
    exact ⟨⟨hq1, hq5⟩, ⟨hsh1, hsh5⟩, ⟨hex1, hex5⟩, ⟨hnz1, hnz5⟩, ⟨hrs1, hrs5⟩⟩

theorem assess_exposure_issue_strings (p : Option (ℚ × ℚ)) :
    ∀ s ∈ (assess_exposure p).2.2, s = "overexposed" ∨ s = "underexposed" := by
  cases p with
  | none => intro s hs; simp [assess_exposure] at hs
  | some pr =>
    obtain ⟨hi, lo⟩ := pr
    intro s hs
    simp only [assess_exposure, List.mem_append] at hs
    rcases hs with hs | hs <;> split_ifs at hs <;> simp_all

theorem assess_resolution_issue_strings (w h m : Nat) :
    ∀ s ∈ (assess_resolution w h m).2, s = "low_resolution" := by
  intro s hs
  simp only [assess_resolution] at hs
  split_ifs at hs <;> simp_all

theorem processing_error_not_mem (minPixels : Nat) (id : String) (d : QImage) :
    "processing_error" ∉ (process_image minPixels id (some d)).issues := by
  intro hmem
  simp only [process_image, List.mem_append] at hmem
  rcases hmem with ((hmem | hmem) | hmem) | hmem
  · rcases assess_exposure_issue_strings d.exposurePcts _ hmem with h | h <;>
      exact absurd h (by decide)
  · exact absurd (assess_resolution_issue_strings d.width d.height minPixels _ hmem)
      (by decide)
  · split_ifs at hmem <;> simp_all
  · split_ifs at hmem <;> simp_all

/-- C8 (counterexample): when exactly one sub-metric (here sharpness) raises
while everything else succeeds, the source substitutes the neutral 3 but the
emitted record carries no `"processing_error"` flag at all — its issue list
is empty, contradicting the claimed flag. -/
theorem submetric_failure_no_flag_counterexample :
    (process_image 2000000 "img1"
      (some ⟨none, some (0, 0), some 0, 4000, 3000⟩)).sharpness = 3
    ∧ (process_image 2000000 "img1"
      (some ⟨none, some (0, 0), some 0, 4000, 3000⟩)).issues = [] := by
  constructor <;>
    norm_num [process_image, assess_sharpness, assess_exposure, assess_noise,
      assess_resolution]

/-- C8 (amended): a single failing sub-metric is replaced by the neutral
score 3, the other sub-scores keep their computed values, the record is
still emitted (the embedding is total), but no `"processing_error"` flag is
appended — that flag marks only whole-image decode failure. -/
theorem submetric_failure_substitutes_three (minPixels : Nat) (id : String)
    (d : QImage) :
    (d.sharpnessVar = none →
      (process_image minPixels id (some d)).sharpness = 3
      ∧ (process_image minPixels id (some d)).exposure =
          (assess_exposure d.exposurePcts).1
      ∧ (process_image minPixels id (some d)).noise =
          (assess_noise d.noiseStd).1
      ∧ (process_image minPixels id (some d)).resolution =
          (assess_resolution d.width d.height minPixels).1
      ∧ "processing_error" ∉ (process_image minPixels id (some d)).issues)
    ∧ (d.exposurePcts = none →
      (process_image minPixels id (some d)).exposure = 3
      ∧ (process_image minPixels id (some d)).sharpness =
          (assess_sharpness d.sharpnessVar).1
      ∧ (process_image minPixels id (some d)).noise =
          (assess_noise d.noiseStd).1
      ∧ (process_image minPixels id (some d)).resolution =
          (assess_resolution d.width d.height minPixels).1
      ∧ "processing_error" ∉ (process_image minPixels id (some d)).issues)
    ∧ (d.noiseStd = none →
      (process_image minPixels id (some d)).noise = 3
      ∧ (process_image minPixels id (some d)).sharpness =
          (assess_sharpness d.sharpnessVar).1
      ∧ (process_image minPixels id (some d)).exposure =
          (assess_exposure d.exposurePcts).1
      ∧ (process_image minPixels id (some d)).resolution =
          (assess_resolution d.width d.height minPixels).1
      ∧ "processing_error" ∉ (process_image minPixels id (some d)).issues) := by
  refine ⟨fun h => ⟨?_, rfl, rfl, rfl, processing_error_not_mem minPixels id d⟩,
    fun h => ⟨?_, rfl, rfl, rfl, processing_error_not_mem minPixels id d⟩,
    fun h => ⟨?_, rfl, rfl, rfl, processing_error_not_mem minPixels id d⟩⟩
  · simp [process_image, h, assess_sharpness]
  · simp [process_image, h, assess_exposure]
  · simp [process_image, h, assess_noise]

/-- Witness for C8's amended theorem: a concrete image whose sharpness
computation raises and whose other sub-metrics succeed. -/
theorem submetric_failure_substitutes_three_witness :
    (process_image 2000000 "img2"
      (some ⟨none, some (1, 2), some 7, 2000, 1500⟩)).sharpness = 3
    ∧ (process_image 2000000 "img2"
      (some ⟨none, some (1, 2), some 7, 2000, 1500⟩)).exposure =
        (assess_exposure (some (1, 2))).1
    ∧ (process_image 2000000 "img2"
      (some ⟨none, some (1, 2), some 7, 2000, 1500⟩)).noise =
        (assess_noise (some 7)).1
    ∧ (process_image 2000000 "img2"
      (some ⟨none, some (1, 2), some 7, 2000, 1500⟩)).resolution =
        (assess_resolution 2000 1500 2000000).1
    ∧ "processing_error" ∉ (process_image 2000000 "img2"
      (some ⟨none, some (1, 2), some 7, 2000, 1500⟩)).issues :=
  (submetric_failure_substitutes_three 2000000 "img2"
    ⟨none, some (1, 2), some 7, 2000, 1500⟩).1 rfl

/-- C1: the distance of every compared pair is the minimum of the three
per-family Hamming distances, and classification follows the tiered
thresholds: duplicate at ≤5, near-duplicate at ≤`t` (config default 10),
similar at ≤15, excluded beyond 15 (the exclusion tier requires the
configured threshold to stay within the 15-bit similar tier, as the default
does). -/
theorem pair_distance_classification (t : Nat) (ht : t ≤ 15)
    (r1 r2 : ImgRec) (d : Nat) :
    minDistance r1 r2 =
      min (hammingRun r1.phash r2.phash)
        (min (hammingRun r1.dhash r2.dhash) (hammingRun r1.ahash r2.ahash))
    ∧ (d ≤ 5 → classify t d = some SimType.duplicate)
    ∧ (5 < d → d ≤ t → classify t d = some SimType.nearDuplicate)
    ∧ (5 < d → t < d → d ≤ 15 → classify t d = some SimType.similar)
    ∧ (15 < d → classify t d = none) := by
  refine ⟨rfl, ?_, ?_, ?_, ?_⟩ <;> intros <;> unfold classify <;>
    split_ifs <;> first | rfl | omega

/-- Witness for C1 at the default threshold 10, one distance per tier. -/
theorem pair_distance_classification_witness :
    classify 10 3 = some SimType.duplicate
    ∧ classify 10 8 = some SimType.nearDuplicate
    ∧ classify 10 12 = some SimType.similar
    ∧ classify 10 16 = none := by
  have p := pair_distance_classification 10 (by decide) ⟨"", [], [], [], 3, 3, 0⟩
    ⟨"", [], [], [], 3, 3, 0⟩
  exact ⟨(p 3).2.1 (by decide), (p 8).2.2.1 (by decide) (by decide),
    (p 12).2.2.2.1 (by decide) (by decide) (by decide),
    (p 16).2.2.2.2 (by decide)⟩

theorem scan_spec (t : Nat) (seed : ImgRec) :
    ∀ (cs : List ImgRec) (grouped : List String) (st : ScanState),
    ∃ new : List String,
      (scanCandidates t seed cs grouped st).1.members = st.members ++ new
      ∧ (∀ x, x ∈ (scanCandidates t seed cs grouped st).2 ↔ x ∈ new ∨ x ∈ grouped)
      ∧ (∀ x ∈ new, x ∉ grouped
          ∧ ∃ c ∈ cs, x = c.image_id ∧ classify t (minDistance seed c) ≠ none) := by
  intro cs
  induction cs with
  | nil =>
    intro grouped st
    exact ⟨[], by simp [scanCandidates], by simp [scanCandidates], by simp⟩
  | cons c cs ih =>
    intro grouped st
    simp only [scanCandidates]
    by_cases hmem : c.image_id ∈ grouped
    · rw [if_pos hmem]
      obtain ⟨new, h1, h2, h3⟩ := ih grouped st
      refine ⟨new, h1, h2, fun x hx => ⟨(h3 x hx).1, ?_⟩⟩
      obtain ⟨cc, hcc, hxc, hcl⟩ := (h3 x hx).2
      exact ⟨cc, List.mem_cons_of_mem _ hcc, hxc, hcl⟩
    · rw [if_neg hmem]
      cases hcl : classify t (minDistance seed c) with
      | none =>
        obtain ⟨new, h1, h2, h3⟩ := ih grouped st
        refine ⟨new, h1, h2, fun x hx => ⟨(h3 x hx).1, ?_⟩⟩
        obtain ⟨cc, hcc, hxc, hcl2⟩ := (h3 x hx).2
        exact ⟨cc, List.mem_cons_of_mem _ hcc, hxc, hcl2⟩
      | some ty =>
        obtain ⟨new, h1, h2, h3⟩ := ih (c.image_id :: grouped)
          ⟨st.members ++ [c.image_id], ty, ((minDistance seed c : Nat) : ℚ)⟩
        refine ⟨c.image_id :: new, ?_, ?_, ?_⟩
        · rw [h1]; simp
        · intro x
          rw [h2 x]
          simp only [List.mem_cons]
          tauto
        · intro x hx
          rcases List.mem_cons.mp hx with hx | hx
          · subst hx
            exact ⟨hmem, c, List.mem_cons_self _ _, rfl, by rw [hcl]; simp⟩
          · obtain ⟨hng, cc, hcc, hxc, hcl2⟩ := h3 x hx
            have hng' : x ∉ grouped := fun hg =>
              hng (List.mem_cons_of_mem _ hg)
            obtain ⟨cc2, hcc2, hxc2, hcl3⟩ :
                ∃ cc2 ∈ cs, x = cc2.image_id
                  ∧ classify t (minDistance seed cc2) ≠ none := ⟨cc, hcc, hxc, hcl2⟩
            exact ⟨hng', cc2, List.mem_cons_of_mem _ hcc2, hxc2, hcl3⟩

theorem fsg_not_grouped (t : Nat) (all : List ImgRec) :
    ∀ (rest : List ImgRec) (grouped : List String) (ctr : Nat),
    ∀ g ∈ fsgAux t all rest grouped ctr, ∀ id ∈ g.image_ids, id ∉ grouped := by
  intro rest
  induction rest with
  | nil => intro grouped ctr g hg; simp [fsgAux] at hg
  | cons seed rest ih =>
    intro grouped ctr g hg
    simp only [fsgAux] at hg
    by_cases hmem : seed.image_id ∈ grouped
    · rw [if_pos hmem] at hg
      exact ih grouped ctr g hg
    · rw [if_neg hmem] at hg
      obtain ⟨new, h1, h2, h3⟩ := scan_spec t seed rest grouped
        ⟨[], SimType.duplicate, 0⟩
      obtain ⟨⟨st, grouped2⟩, hsc⟩ :
          ∃ p, scanCandidates t seed rest grouped ⟨[], SimType.duplicate, 0⟩ = p :=
        ⟨_, rfl⟩
      rw [hsc] at hg h1 h2
      simp only at hg h1 h2
      by_cases hempty : st.members = []
      · rw [if_pos hempty] at hg
        intro id hid hin
        have hsub : ∀ x, x ∈ grouped → x ∈ grouped2 := fun x hx =>
          (h2 x).mpr (Or.inr hx)
        exact ih grouped2 ctr g hg id hid (hsub id hin)
      · rw [if_neg hempty] at hg
        rcases List.mem_cons.mp hg with hg | hg
        · subst hg
          intro id hid hin
          simp only [List.mem_cons] at hid
          rcases hid with hid | hid
          · subst hid; exact hmem hin
          · rw [h1] at hid
            simp only [List.nil_append] at hid
            exact (h3 id hid).1 hin
        · intro id hid hin
          have hsub : id ∈ seed.image_id :: grouped2 →
              id ∉ (seed.image_id :: grouped2) → False := fun a b => b a
          have := ih (seed.image_id :: grouped2) (ctr + 1) g hg id hid
          exact this (List.mem_cons_of_mem _ ((h2 id).mpr (Or.inr hin)))

theorem fsg_min_two (t : Nat) (all : List ImgRec) :
    ∀ (rest : List ImgRec) (grouped : List String) (ctr : Nat),
    ∀ g ∈ fsgAux t all rest grouped ctr, 2 ≤ g.image_ids.length := by
  intro rest
  induction rest with
  | nil => intro grouped ctr g hg; simp [fsgAux] at hg
  | cons seed rest ih =>
    intro grouped ctr g hg
    simp only [fsgAux] at hg
    by_cases hmem : seed.image_id ∈ grouped
    · rw [if_pos hmem] at hg
      exact ih grouped ctr g hg
    · rw [if_neg hmem] at hg
      obtain ⟨⟨st, grouped2⟩, hsc⟩ :
          ∃ p, scanCandidates t seed rest grouped ⟨[], SimType.duplicate, 0⟩ = p :=
        ⟨_, rfl⟩
      rw [hsc] at hg
      simp only at hg
      by_cases hempty : st.members = []
      · rw [if_pos hempty] at hg
        exact ih grouped2 ctr g hg
      · rw [if_neg hempty] at hg
        rcases List.mem_cons.mp hg with hg | hg
        · subst hg
          simp only [List.length_cons]
          cases hm : st.members with
          | nil => exact absurd hm hempty
          | cons m ms => simp [hm]
        · exact ih (seed.image_id :: grouped2) (ctr + 1) g hg

theorem fsg_pairwise_disjoint (t : Nat) (all : List ImgRec) :
    ∀ (rest : List ImgRec) (grouped : List String) (ctr : Nat),
    (fsgAux t all rest grouped ctr).Pairwise
      (fun g1 g2 => ∀ id ∈ g1.image_ids, id ∉ g2.image_ids) := by
  intro rest
  induction rest with
  | nil => intro grouped ctr; simp [fsgAux]
  | cons seed rest ih =>
    intro grouped ctr
    simp only [fsgAux]
    by_cases hmem : seed.image_id ∈ grouped
    · rw [if_pos hmem]
      exact ih grouped ctr
    · rw [if_neg hmem]
      obtain ⟨new, h1, h2, h3⟩ := scan_spec t seed rest grouped
        ⟨[], SimType.duplicate, 0⟩
      obtain ⟨⟨st, grouped2⟩, hsc⟩ :
          ∃ p, scanCandidates t seed rest grouped ⟨[], SimType.duplicate, 0⟩ = p :=
        ⟨_, rfl⟩
      rw [hsc] at h1 h2 ⊢
      simp only at h1 h2 ⊢
      by_cases hempty : st.members = []
      · rw [if_pos hempty]
        exact ih grouped2 ctr
      · rw [if_neg hempty]
        refine List.pairwise_cons.mpr ⟨?_, ih (seed.image_id :: grouped2) (ctr + 1)⟩
        intro g2 hg2 id hid
        have hgr : id ∈ seed.image_id :: grouped2 := by
          simp only [List.mem_cons] at hid ⊢
          rcases hid with hid | hid
          · exact Or.inl hid
          · rw [h1] at hid
            simp only [List.nil_append] at hid
            exact Or.inr ((h2 id).mpr (Or.inl hid))
        exact fun hin =>
          fsg_not_grouped t all rest (seed.image_id :: grouped2) (ctr + 1)
            g2 hg2 id hin hgr

/-- C6: under pairwise-distinct input ids, every emitted group has at least
two members and no image id appears in more than one emitted group; a seed
that absorbs nothing yields no group record (that is the two-member bound
from the other side: singleton states are never emitted). The proof in fact
never needs the distinctness hypothesis. -/
theorem grouping_invariants (t : Nat) (data : List ImgRec)
    (_hnd : (data.map ImgRec.image_id).Nodup) :
    (∀ g ∈ find_similar_groups t data, 2 ≤ g.image_ids.length)
    ∧ (find_similar_groups t data).Pairwise
        (fun g1 g2 => ∀ id ∈ g1.image_ids, id ∉ g2.image_ids) :=
  ⟨fun g hg => fsg_min_two t data data [] 0 g hg,
    fsg_pairwise_disjoint t data data [] 0⟩

/-- C2 (counterexample): in the batch `[recA, recB, recC]`, member `b` joins
the seed's group at distance 3 (duplicate tier) and `c` afterwards at
distance 12 (similar tier); the emitted group reports `similar`/12 — the
values of the last absorbed member — although the tightest tier observed is
`duplicate` and the minimum distance observed is 3. -/
theorem group_last_writer_counterexample :
    (find_similar_groups 10 [recA, recB, recC]).map
      (fun g => (g.image_ids, g.similarity_type, g.similarity_metric))
      = [(["a", "b", "c"], SimType.similar, ((12 : Nat) : ℚ))]
    ∧ minDistance recA recB = 3
    ∧ classify 10 (minDistance recA recB) = some SimType.duplicate
    ∧ minDistance recA recC = 12
    ∧ SimType.similar ≠ SimType.duplicate
    ∧ ((12 : Nat) : ℚ) ≠ ((3 : Nat) : ℚ) :=
  ⟨by decide, by decide, by decide, by decide, by decide, by decide⟩

theorem scan_last (t : Nat) (seed : ImgRec) :
    ∀ (cs : List ImgRec) (grouped : List String) (st : ScanState),
    (scanCandidates t seed cs grouped st).1 = st
    ∨ ∃ c ∈ cs,
        (scanCandidates t seed cs grouped st).1.members ≠ []
        ∧ (scanCandidates t seed cs grouped st).1.members.getLast? = some c.image_id
        ∧ classify t (minDistance seed c) =
            some (scanCandidates t seed cs grouped st).1.simType
        ∧ (scanCandidates t seed cs grouped st).1.metric =
            ((minDistance seed c : Nat) : ℚ) := by
  intro cs
  induction cs with
  | nil => intro grouped st; exact Or.inl rfl
  | cons c cs ih =>
    intro grouped st
    simp only [scanCandidates]
    by_cases hmem : c.image_id ∈ grouped
    · rw [if_pos hmem]
      rcases ih grouped st with h | ⟨c2, hc2, h⟩
      · exact Or.inl h
      · exact Or.inr ⟨c2, List.mem_cons_of_mem _ hc2, h⟩
    · rw [if_neg hmem]
      cases hcl : classify t (minDistance seed c) with
      | none =>
        rcases ih grouped st with h | ⟨c2, hc2, h⟩
        · exact Or.inl h
        · exact Or.inr ⟨c2, List.mem_cons_of_mem _ hc2, h⟩
      | some ty =>
        rcases ih (c.image_id :: grouped)
          ⟨st.members ++ [c.image_id], ty, ((minDistance seed c : Nat) : ℚ)⟩ with
          h | ⟨c2, hc2, h⟩
        · refine Or.inr ⟨c, List.mem_cons_self _ _, ?_, ?_, ?_, ?_⟩
          · rw [h]; simp
          · rw [h]; simp [List.getLast?_concat]
          · rw [h, hcl]
          · rw [h]
        · exact Or.inr ⟨c2, List.mem_cons_of_mem _ hc2, h⟩

/-- C2 (amended): the emitted group's `similarity_type` and
`similarity_metric` are those of the last member absorbed into the group —
the classification and distance of the final matching seed-to-member
comparison — not the tightest tier or minimum distance observed. -/
theorem group_type_metric_last (t : Nat) (data : List ImgRec) :
    ∀ g ∈ find_similar_groups t data, ∃ s c : ImgRec, s ∈ data ∧ c ∈ data
      ∧ g.image_ids.head? = some s.image_id
      ∧ g.image_ids.getLast? = some c.image_id
      ∧ classify t (minDistance s c) = some g.similarity_type
      ∧ g.similarity_metric = ((minDistance s c : Nat) : ℚ) := by
  suffices haux : ∀ (rest : List ImgRec) (grouped : List String) (ctr : Nat),
      (∀ x ∈ rest, x ∈ data) →
      ∀ g ∈ fsgAux t data rest grouped ctr, ∃ s c : ImgRec, s ∈ data ∧ c ∈ data
        ∧ g.image_ids.head? = some s.image_id
        ∧ g.image_ids.getLast? = some c.image_id
        ∧ classify t (minDistance s c) = some g.similarity_type
        ∧ g.similarity_metric = ((minDistance s c : Nat) : ℚ) by
    exact haux data [] 0 (fun x hx => hx)
  intro rest
  induction rest with
  | nil => intro grouped ctr hsub g hg; simp [fsgAux] at hg
  | cons seed rest ih =>
    intro grouped ctr hsub g hg
    have hseed : seed ∈ data := hsub seed (List.mem_cons_self _ _)
    have hsub' : ∀ x ∈ rest, x ∈ data := fun x hx =>
      hsub x (List.mem_cons_of_mem _ hx)
    simp only [fsgAux] at hg
    by_cases hmem : seed.image_id ∈ grouped
    · rw [if_pos hmem] at hg
      exact ih grouped ctr hsub' g hg
    · rw [if_neg hmem] at hg
      obtain ⟨⟨st, grouped2⟩, hsc⟩ :
          ∃ p, scanCandidates t seed rest grouped ⟨[], SimType.duplicate, 0⟩ = p :=
        ⟨_, rfl⟩
      rw [hsc] at hg
      simp only at hg
      by_cases hempty : st.members = []
      · rw [if_pos hempty] at hg
        exact ih grouped2 ctr hsub' g hg
      · rw [if_neg hempty] at hg
        rcases List.mem_cons.mp hg with hg | hg
        · subst hg
          rcases scan_last t seed rest grouped ⟨[], SimType.duplicate, 0⟩ with
            hl | ⟨c, hc, hne, hlast, hcl, hmet⟩
          · rw [hsc] at hl
            simp only at hl
            exact absurd (by rw [hl]) hempty
          · rw [hsc] at hne hlast hcl hmet
            simp only at hne hlast hcl hmet
            refine ⟨seed, c, hseed, hsub' c hc, rfl, ?_, hcl, hmet⟩
            simp only
            cases hm : st.members with
            | nil => exact absurd hm hempty
            | cons m ms => rw [List.getLast?_cons_cons, ← hm, hlast]
        · exact ih (seed.image_id :: grouped2) (ctr + 1) hsub' g hg

/-- Full evaluation of the counterexample batch, including the selected best
image; used to instantiate witnesses on a concrete emitted group. -/
theorem fsg_concrete_eval :
    find_similar_groups 10 [recA, recB, recC] =
      [⟨"group_0", ["a", "b", "c"], SimType.similar, ((12 : Nat) : ℚ), some "a"⟩] := by
  have hAB : minDistance recA recB = 3 := by decide
  have hAC : minDistance recA recC = 12 := by decide
  have hA : recA.image_id = "a" := rfl
  have hB : recB.image_id = "b" := rfl
  have hC : recC.image_id = "c" := rfl
  have cA : combinedScore recA = 3 := by
    norm_num [combinedScore, floatAdd, floatMul, roundDouble, pyRound, c04, c06, recA]
  have cB : combinedScore recB = 3 := by
    norm_num [combinedScore, floatAdd, floatMul, roundDouble, pyRound, c04, c06, recB]
  have cC : combinedScore recC = 3 := by
    norm_num [combinedScore, floatAdd, floatMul, roundDouble, pyRound, c04, c06, recC]
  have rA : recA.resolution = 0 := rfl
  have rB : recB.resolution = 0 := rfl
  have rC : recC.resolution = 0 := rfl
  simp +decide only [find_similar_groups, fsgAux, scanCandidates, classify,
    select_best_image, sortScored, insertScored, scoreKeyLE, lookupRec,
    List.filterMap, List.find?, hAB, hAC, hA, hB, hC, cA, cB, cC, rA, rB, rC]

/-- Witness for C2's amended theorem on the concrete emitted group of the
counterexample batch. -/
theorem group_type_metric_last_witness :
    ∃ s c : ImgRec, s ∈ [recA, recB, recC] ∧ c ∈ [recA, recB, recC]
      ∧ (SimGroup.mk "group_0" ["a", "b", "c"] SimType.similar
          ((12 : Nat) : ℚ) (some "a")).image_ids.head? = some s.image_id
      ∧ (SimGroup.mk "group_0" ["a", "b", "c"] SimType.similar
          ((12 : Nat) : ℚ) (some "a")).image_ids.getLast? = some c.image_id
      ∧ classify 10 (minDistance s c) =
          some (SimGroup.mk "group_0" ["a", "b", "c"] SimType.similar
            ((12 : Nat) : ℚ) (some "a")).similarity_type
      ∧ (SimGroup.mk "group_0" ["a", "b", "c"] SimType.similar
          ((12 : Nat) : ℚ) (some "a")).similarity_metric =
            ((minDistance s c : Nat) : ℚ) :=
  group_type_metric_last 10 [recA, recB, recC] _ (fsg_concrete_eval ▸ List.mem_singleton.mpr rfl)

/-- Witness for C6 at the concrete three-image batch with distinct ids. -/
theorem grouping_invariants_witness :
    (∀ g ∈ find_similar_groups 10 [recA, recB, recC], 2 ≤ g.image_ids.length)
    ∧ (find_similar_groups 10 [recA, recB, recC]).Pairwise
        (fun g1 g2 => ∀ id ∈ g1.image_ids, id ∉ g2.image_ids) :=
  grouping_invariants 10 [recA, recB, recC] (by decide)

theorem hammingRun_left_empty (h : List Char) : hammingRun [] h = 999 := by
  simp [hammingRun, hammingGuard]

theorem hammingRun_right_empty (h : List Char) : hammingRun h [] = 999 := by
  simp [hammingRun, hammingGuard]

theorem minDistance_sentinel_left {r : ImgRec} (c : ImgRec)
    (hp : r.phash = []) (hd : r.dhash = []) (ha : r.ahash = []) :
    minDistance r c = 999 := by
  unfold minDistance
  rw [hp, hd, ha, hammingRun_left_empty, hammingRun_left_empty,
    hammingRun_left_empty, Nat.min_self, Nat.min_self]

theorem minDistance_sentinel_right {r : ImgRec} (c : ImgRec)
    (hp : r.phash = []) (hd : r.dhash = []) (ha : r.ahash = []) :
    minDistance c r = 999 := by
  unfold minDistance
  rw [hp, hd, ha, hammingRun_right_empty, hammingRun_right_empty,
    hammingRun_right_empty, Nat.min_self, Nat.min_self]

theorem classify_999 {t : Nat} (ht : t ≤ 15) : classify t 999 = none := by
  unfold classify
  split_ifs <;> first | rfl | omega

theorem scan_nothing (t : Nat) (seed : ImgRec) :
    ∀ (cs : List ImgRec) (grouped : List String) (st : ScanState),
    (∀ c ∈ cs, classify t (minDistance seed c) = none) →
    scanCandidates t seed cs grouped st = (st, grouped) := by
  intro cs
  induction cs with
  | nil => intro grouped st hnone; rfl
  | cons c cs ih =>
    intro grouped st hnone
    simp only [scanCandidates]
    by_cases hmem : c.image_id ∈ grouped
    · rw [if_pos hmem]
      exact ih grouped st (fun c2 hc2 => hnone c2 (List.mem_cons_of_mem _ hc2))
    · rw [if_neg hmem, hnone c (List.mem_cons_self _ _)]
      exact ih grouped st (fun c2 hc2 => hnone c2 (List.mem_cons_of_mem _ hc2))

theorem fsg_sentinel_aux (t : Nat) (ht : t ≤ 15) (data : List ImgRec)
    (hnd : (data.map ImgRec.image_id).Nodup) (r : ImgRec) (hr : r ∈ data)
    (hp : r.phash = []) (hd : r.dhash = []) (ha : r.ahash = []) :
    ∀ (rest : List ImgRec) (grouped : List String) (ctr : Nat),
    (∀ x ∈ rest, x ∈ data) →
    ∀ g ∈ fsgAux t data rest grouped ctr, r.image_id ∉ g.image_ids := by
  intro rest
  induction rest with
  | nil => intro grouped ctr hsub g hg; simp [fsgAux] at hg
  | cons seed rest ih =>
    intro grouped ctr hsub g hg
    have hseed : seed ∈ data := hsub seed (List.mem_cons_self _ _)
    have hsub' : ∀ x ∈ rest, x ∈ data := fun x hx =>
      hsub x (List.mem_cons_of_mem _ hx)
    simp only [fsgAux] at hg
    by_cases hmem : seed.image_id ∈ grouped
    · rw [if_pos hmem] at hg
      exact ih grouped ctr hsub' g hg
    · rw [if_neg hmem] at hg
      obtain ⟨⟨st, grouped2⟩, hsc⟩ :
          ∃ p, scanCandidates t seed rest grouped ⟨[], SimType.duplicate, 0⟩ = p :=
        ⟨_, rfl⟩
      rw [hsc] at hg
      simp only at hg
      by_cases hsr : seed.image_id = r.image_id
      · have hseq : seed = r :=
          List.inj_on_of_nodup_map hnd hseed hr hsr
        have hnone : ∀ c ∈ rest, classify t (minDistance seed c) = none := by
          intro c hc
          rw [hseq, minDistance_sentinel_left c hp hd ha]
          exact classify_999 ht
        have hstop := scan_nothing t seed rest grouped
          ⟨[], SimType.duplicate, 0⟩ hnone
        rw [hstop] at hsc
        obtain ⟨hst, hgr2⟩ := Prod.mk.injEq .. ▸ hsc
        have hempty : st.members = [] := by rw [← hst]
        rw [if_pos hempty] at hg
        exact ih grouped2 ctr hsub' g hg
      · by_cases hempty : st.members = []
        · rw [if_pos hempty] at hg
          exact ih grouped2 ctr hsub' g hg
        · rw [if_neg hempty] at hg
          rcases List.mem_cons.mp hg with hg | hg
          · subst hg
            intro hin
            simp only [List.mem_cons] at hin
            rcases hin with hin | hin
            · exact hsr hin.symm
            · obtain ⟨new, h1, h2, h3⟩ := scan_spec t seed rest grouped
                ⟨[], SimType.duplicate, 0⟩
              rw [hsc] at h1
              simp only at h1
              rw [h1] at hin
              simp only [List.nil_append] at hin
              obtain ⟨-, c, hc, hxc, hcl⟩ := h3 _ hin
              have hceq : c = r :=
                List.inj_on_of_nodup_map hnd (hsub' c hc) hr hxc.symm
              rw [hceq, minDistance_sentinel_right seed hp hd ha] at hcl
              exact hcl (classify_999 ht)
          · exact ih (seed.image_id :: grouped2) (ctr + 1) hsub' g hg

/-- C9: the hash extractor turns a failed hash computation into the empty
sentinel triple plus a logged hash error without aborting; any per-family
comparison against the sentinel yields the incomparable constant 999 > 15,
so the pairwise minimum (and with it the classification) falls back to the
remaining families; and an image whose three hash families all failed never
appears in any emitted group. -/
theorem hash_failure_containment (t : Nat) (ht : t ≤ 15) :
    compute_hash none = (([], [], []), true)
    ∧ (∀ h : List Char, hammingRun [] h = 999 ∧ hammingRun h [] = 999)
    ∧ (15 : Nat) < 999
    ∧ (∀ m : Nat, classify t (min 999 m) = classify t m)
    ∧ (∀ data : List ImgRec, (data.map ImgRec.image_id).Nodup →
        ∀ r ∈ data, r.phash = [] → r.dhash = [] → r.ahash = [] →
        ∀ g ∈ find_similar_groups t data, r.image_id ∉ g.image_ids) := by
  refine ⟨rfl, fun h => ⟨hammingRun_left_empty h, hammingRun_right_empty h⟩,
    by omega, ?_, ?_⟩
  · intro m
    rcases Nat.le_total m 999 with hm | hm
    · rw [Nat.min_eq_right hm]
    · rw [Nat.min_eq_left hm]
      have h999 := classify_999 ht
      have hmt : classify t m = none := by
        unfold classify
        split_ifs <;> first | rfl | omega
      rw [h999, hmt]
  · intro data hnd r hr hp hd ha g hg
    exact fsg_sentinel_aux t ht data hnd r hr hp hd ha data [] 0
      (fun x hx => hx) g hg

/-- Witness for C9 at the default threshold and a concrete batch containing
an all-sentinel image alongside a duplicate pair. -/
theorem hash_failure_containment_witness :
    compute_hash none = (([], [], []), true)
    ∧ hammingRun [] ['a'] = 999
    ∧ classify 10 (min 999 7) = classify 10 7
    ∧ (∀ g ∈ find_similar_groups 10 [recS, recA, recB], "s" ∉ g.image_ids) := by
  have h := hash_failure_containment 10 (by decide)
  refine ⟨h.1, (h.2.1 ['a']).1, h.2.2.2.1 7, ?_⟩
  intro g hg
  exact h.2.2.2.2 [recS, recA, recB] (by decide) recS (by decide) rfl rfl rfl g hg

theorem scoreKeyLE_refl (a : Scored) : scoreKeyLE a a = true := by
  simp [scoreKeyLE]

theorem scoreKeyLE_total (a b : Scored) :
    scoreKeyLE a b = true ∨ scoreKeyLE b a = true := by
  simp only [scoreKeyLE, decide_eq_true_eq]
  rcases lt_trichotomy a.score b.score with h | h | h
  · exact Or.inr (Or.inl h)
  · rcases le_total a.resolution b.resolution with hr | hr
    · exact Or.inr (Or.inr ⟨h, hr⟩)
    · exact Or.inl (Or.inr ⟨h.symm, hr⟩)
  · exact Or.inl (Or.inl h)

theorem scoreKeyLE_trans {a b c : Scored} (h1 : scoreKeyLE a b = true)
    (h2 : scoreKeyLE b c = true) : scoreKeyLE a c = true := by
  simp only [scoreKeyLE, decide_eq_true_eq] at h1 h2 ⊢
  rcases h1 with h1 | ⟨h1, h1r⟩ <;> rcases h2 with h2 | ⟨h2, h2r⟩
  · exact Or.inl (lt_trans h2 h1)
  · exact Or.inl (by rw [h2]; exact h1)
  · exact Or.inl (by rw [← h1]; exact h2)
  · exact Or.inr ⟨by rw [h2, h1], le_trans h2r h1r⟩

theorem insertScored_length (a : Scored) (l : List Scored) :
    (insertScored a l).length = l.length + 1 := by
  induction l with
  | nil => rfl
  | cons b l ih =>
    simp only [insertScored]
    split_ifs <;> simp [ih]

theorem sortScored_length (l : List Scored) :
    (sortScored l).length = l.length := by
  induction l with
  | nil => rfl
  | cons a l ih => simp [sortScored, insertScored_length, ih]

theorem sortScored_head_spec :
    ∀ (l : List Scored) (x : Scored) (rest : List Scored),
    sortScored l = x :: rest →
    x ∈ l ∧ (∀ y ∈ l, scoreKeyLE x y = true)
    ∧ (∀ y ∈ l, scoreKeyLE y x = true →
        List.indexOf x l ≤ List.indexOf y l) := by
  intro l
  induction l with
  | nil => intro x rest h; simp [sortScored] at h
  | cons a l ih =>
    intro x rest h
    simp only [sortScored] at h
    cases hl : sortScored l with
    | nil =>
      have hlnil : l = [] := by
        have := sortScored_length l
        rw [hl] at this
        exact List.length_eq_zero.mp this.symm
      rw [hl] at h
      simp only [insertScored] at h
      obtain ⟨hxa, -⟩ := List.cons.injEq .. ▸ h
      subst hxa
      subst hlnil
      refine ⟨List.mem_cons_self _ _, ?_, ?_⟩
      · intro y hy
        rcases List.mem_cons.mp hy with hy | hy
        · subst hy; exact scoreKeyLE_refl _
        · simp at hy
      · intro y hy hle
        rw [List.indexOf_cons_self]
        exact Nat.zero_le _
    | cons x' rest' =>
      obtain ⟨hx'_mem, hx'_max, hx'_stab⟩ := ih x' rest' hl
      rw [hl] at h
      simp only [insertScored] at h
      by_cases hax' : scoreKeyLE a x' = true
      · rw [if_pos hax'] at h
        obtain ⟨hxa, -⟩ := List.cons.injEq .. ▸ h
        subst hxa
        refine ⟨List.mem_cons_self _ _, ?_, ?_⟩
        · intro y hy
          rcases List.mem_cons.mp hy with hy | hy
          · subst hy; exact scoreKeyLE_refl _
          · exact scoreKeyLE_trans hax' (hx'_max y hy)
        · intro y hy hle
          rw [List.indexOf_cons_self]
          exact Nat.zero_le _
      · rw [if_neg hax'] at h
        obtain ⟨hxx', -⟩ := List.cons.injEq .. ▸ h
        subst hxx'
        have hxa : scoreKeyLE x' a = true := by
          rcases scoreKeyLE_total a x' with hh | hh
          · exact absurd hh hax'
          · exact hh
        have hane : a ≠ x' := by
          intro he
          exact hax' (he ▸ scoreKeyLE_refl a)
        refine ⟨List.mem_cons_of_mem _ hx'_mem, ?_, ?_⟩
        · intro y hy
          rcases List.mem_cons.mp hy with hy | hy
          · subst hy; exact hxa
          · exact hx'_max y hy
        · intro y hy hle
          have hyne : y ≠ a := by
            intro he
            subst he
            exact hax' hle
          rcases List.mem_cons.mp hy with hy | hy
          · exact absurd hy hyne
          · rw [List.indexOf_cons_ne _ hane, List.indexOf_cons_ne _ (fun he => hyne he.symm)]
            exact Nat.succ_le_succ (hx'_stab y hy hle)

theorem scoredOf_image_id (data : List ImgRec) (id : String) :
    (scoredOf data id).image_id = id := by
  unfold scoredOf
  cases lookupRec data id <;> rfl

theorem scoredOf_inj (data : List ImgRec) : Function.Injective (scoredOf data) := by
  intro a b h
  have := congrArg Scored.image_id h
  rwa [scoredOf_image_id, scoredOf_image_id] at this

theorem indexOf_map_of_injective {f : String → Scored}
    (hf : Function.Injective f) :
    ∀ (l : List String) (a : String),
    List.indexOf (f a) (l.map f) = List.indexOf a l := by
  intro l
  induction l with
  | nil => intro a; rfl
  | cons b l ih =>
    intro a
    by_cases hba : b = a
    · subst hba
      rw [List.map_cons, List.indexOf_cons_self, List.indexOf_cons_self]
    · rw [List.map_cons, List.indexOf_cons_ne _ (fun he => hba (hf he)),
        List.indexOf_cons_ne _ hba, ih a]

theorem filterMap_eq_map_scoredOf (data : List ImgRec) :
    ∀ ids : List String, (∀ id ∈ ids, (lookupRec data id).isSome = true) →
    ids.filterMap (fun id => (lookupRec data id).map
      (fun r => Scored.mk id (combinedScore r) r.resolution)) =
      ids.map (scoredOf data) := by
  intro ids
  induction ids with
  | nil => intro h; rfl
  | cons id ids ih =>
    intro h
    have hsome := h id (List.mem_cons_self _ _)
    cases hr : lookupRec data id with
    | none => rw [hr] at hsome; simp at hsome
    | some r =>
      have hsc : scoredOf data id = Scored.mk id (combinedScore r) r.resolution := by
        unfold scoredOf
        rw [hr]
      simp only [List.filterMap_cons, List.map_cons, hr, Option.map_some', hsc]
      exact congrArg _ (ih (fun i hi => h i (List.mem_cons_of_mem _ hi)))

/-- C3 (amended): for a non-empty member list whose members all have
records, `select_best_image` returns a member whose double-precision
combined score `0.4 * technical + 0.6 * aesthetic` — the value the code
computes — is maximal; among members tied on that computed score the higher
resolution wins; among members tied on both, the one at the earliest
position of the member list wins. An exact-arithmetic tie need not be a tie
of the computed score (see the counterexample), so the resolution and
position tie-breaks reach only exact ties of the double values. -/
theorem select_best_image_spec (ids : List String) (data : List ImgRec)
    (h1 : ids ≠ []) (h3 : ∀ id ∈ ids, (lookupRec data id).isSome = true) :
    ∃ b r, select_best_image ids data = some b ∧ b ∈ ids
      ∧ lookupRec data b = some r
      ∧ ∀ id ∈ ids, ∀ r2, lookupRec data id = some r2 →
          combinedScore r2 ≤ combinedScore r
          ∧ (combinedScore r2 = combinedScore r → r2.resolution ≤ r.resolution)
          ∧ (combinedScore r2 = combinedScore r → r2.resolution = r.resolution →
              List.indexOf b ids ≤ List.indexOf id ids) := by
  have hmap := filterMap_eq_map_scoredOf data ids h3
  have hlen : (sortScored (ids.map (scoredOf data))).length = ids.length := by
    rw [sortScored_length, List.length_map]
  cases hsort : sortScored (ids.map (scoredOf data)) with
  | nil =>
    rw [hsort] at hlen
    exact absurd (List.length_eq_zero.mp hlen.symm) h1
  | cons x rest =>
    obtain ⟨hx_mem, hx_max, hx_stab⟩ :=
      sortScored_head_spec (ids.map (scoredOf data)) x rest hsort
    obtain ⟨b0, hb0_mem, hb0_eq⟩ := List.mem_map.mp hx_mem
    have hb0some := h3 b0 hb0_mem
    cases hrb : lookupRec data b0 with
    | none => rw [hrb] at hb0some; simp at hb0some
    | some r =>
      have hx_eq : x = Scored.mk b0 (combinedScore r) r.resolution := by
        rw [← hb0_eq]
        unfold scoredOf
        rw [hrb]
      have hsel : select_best_image ids data = some b0 := by
        simp only [select_best_image]
        rw [hmap, hsort]
        simp only [List.head?_cons]
        rw [hx_eq]
      refine ⟨b0, r, hsel, hb0_mem, hrb, ?_⟩
      intro id hid r2 hr2
      have hy_mem : scoredOf data id ∈ ids.map (scoredOf data) :=
        List.mem_map_of_mem _ hid
      have hy_eq : scoredOf data id = Scored.mk id (combinedScore r2) r2.resolution := by
        unfold scoredOf
        rw [hr2]
      have hle := hx_max _ hy_mem
      rw [hx_eq, hy_eq] at hle
      simp only [scoreKeyLE, decide_eq_true_eq] at hle
      refine ⟨?_, ?_, ?_⟩
      · rcases hle with h | ⟨h, -⟩
        · exact le_of_lt h
        · exact le_of_eq h
      · intro heq
        rcases hle with h | ⟨-, h⟩
        · exact absurd heq (ne_of_lt h)
        · exact h
      · intro heq hres
        have hyx : scoreKeyLE (scoredOf data id) x = true := by
          rw [hx_eq, hy_eq]
          simp only [scoreKeyLE, decide_eq_true_eq]
          exact Or.inr ⟨heq.symm, le_of_eq hres.symm⟩
        have hstab := hx_stab _ hy_mem hyx
        rw [← hb0_eq] at hstab
        rwa [indexOf_map_of_injective (scoredOf_inj data),
          indexOf_map_of_injective (scoredOf_inj data)] at hstab

/-- Witness for C3 at the spec's scenario C: three members with quality
scores 5, 3, 4 and aesthetic scores 2, 5, 3 at equal resolution; the second
member has the strictly highest computed combined score (close to 4.2). -/
theorem select_best_image_spec_witness :
    ∃ b r, select_best_image ["a", "b", "c"]
        [⟨"a", [], [], [], 5, 2, 100⟩, ⟨"b", [], [], [], 3, 5, 100⟩,
          ⟨"c", [], [], [], 4, 3, 100⟩] = some b
      ∧ b ∈ ["a", "b", "c"]
      ∧ lookupRec [⟨"a", [], [], [], 5, 2, 100⟩, ⟨"b", [], [], [], 3, 5, 100⟩,
          ⟨"c", [], [], [], 4, 3, 100⟩] b = some r
      ∧ ∀ id ∈ ["a", "b", "c"], ∀ r2,
          lookupRec [⟨"a", [], [], [], 5, 2, 100⟩, ⟨"b", [], [], [], 3, 5, 100⟩,
            ⟨"c", [], [], [], 4, 3, 100⟩] id = some r2 →
          combinedScore r2 ≤ combinedScore r
          ∧ (combinedScore r2 = combinedScore r → r2.resolution ≤ r.resolution)
          ∧ (combinedScore r2 = combinedScore r → r2.resolution = r.resolution →
              List.indexOf b ["a", "b", "c"] ≤ List.indexOf id ["a", "b", "c"]) :=
  select_best_image_spec ["a", "b", "c"]
    [⟨"a", [], [], [], 5, 2, 100⟩, ⟨"b", [], [], [], 3, 5, 100⟩,
      ⟨"c", [], [], [], 4, 3, 100⟩] (by decide) (by decide)

/-- C3 (counterexample): quality 1/aesthetic 3 and quality 4/aesthetic 1 tie
at 2.2 in the exact combined score the claim describes, and the first member
has the higher resolution and the earlier input position; but the code's
double computation gives `1*0.4 + 3*0.6 = 2.1999999999999997`, strictly
below `4*0.4 + 1*0.6 = 2.2`, so `select_best_image` returns the second
member — the float order decides, not the resolution or stable-order
tie-break the claim asserts. -/
theorem select_best_float_tie_counterexample :
    combinedScoreSpec ⟨"a", [], [], [], 1, 3, 100⟩ =
      combinedScoreSpec ⟨"b", [], [], [], 4, 1, 0⟩
    ∧ (⟨"b", [], [], [], 4, 1, 0⟩ : ImgRec).resolution <
        (⟨"a", [], [], [], 1, 3, 100⟩ : ImgRec).resolution
    ∧ List.indexOf "a" ["a", "b"] < List.indexOf "b" ["a", "b"]
    ∧ combinedScore ⟨"a", [], [], [], 1, 3, 100⟩ <
        combinedScore ⟨"b", [], [], [], 4, 1, 0⟩
    ∧ select_best_image ["a", "b"]
        [⟨"a", [], [], [], 1, 3, 100⟩, ⟨"b", [], [], [], 4, 1, 0⟩] = some "b" := by
  refine ⟨by norm_num [combinedScoreSpec], by norm_num, by decide, ?_, ?_⟩
  · norm_num [combinedScore, floatAdd, floatMul, roundDouble, pyRound, c04, c06]
  · norm_num [select_best_image, sortScored, insertScored, scoreKeyLE,
      combinedScore, floatAdd, floatMul, roundDouble, pyRound, c04, c06,
      lookupRec, List.filterMap, List.find?]
